import Mathlib

/-
Verification of the two recommendation engines of the movie-recommendation
backend: the user-based collaborative-filtering engine
(movies/recommender/collabfiltering.py) and the content-based engine
(movies/recommender/contentbase.py).

The rating matrix is embedded as a function from row/column positions to
optional rational cells (none plays the role of the NaN sentinel), paired
with the sorted id lists that realise the user/movie index maps.  Ratings
and agreement scores are exact rationals; cosine similarities, predictions
and content scores live in the reals.  Database and scikit-learn calls are
external collaborators: the nearest-neighbour index is a parameter of the
content pipeline, and the Django ORM staleness refresh is outside the
matrix algebra modelled here.
-/

open scoped Classical

namespace RecSys

/-- One rating triple as produced by the rating store. -/
structure Rating where
  userId : ℤ
  movieId : ℤ
  rating : ℚ
deriving DecidableEq

/-- State of the collaborative-filtering engine after a matrix build:
sorted external id lists (their positions are the index maps), the dense
matrix with missing cells as none, and the per-user means vector computed
at build time. -/
structure CFState where
  userIds : List ℤ
  movieIds : List ℤ
  R : Nat → Nat → Option ℚ
  means : Nat → ℚ

/-- Position of a user id in the user index map (self.user_index). -/
def userIdxOf (st : CFState) (uid : ℤ) : Option Nat :=
  st.userIds.indexOf? uid

/-- Position of a movie id in the movie index map (self.movie_index). -/
def movieIdxOf (st : CFState) (mid : ℤ) : Option Nat :=
  st.movieIds.indexOf? mid

/-- Write one cell of the matrix, leaving every other cell alone. -/
def setCell (st : CFState) (u j : Nat) (v : Option ℚ) : CFState :=
  { st with R := fun a b => if a = u ∧ b = j then v else st.R a b }

/-- Number of rating rows of a given user in a data frame (user_counts). -/
def countUser (df : List Rating) (uid : ℤ) : Nat :=
  df.countP (fun r => r.userId = uid)

/-- Number of rating rows of a given movie in a data frame (movie_counts). -/
def countMovie (df : List Rating) (mid : ℤ) : Nat :=
  df.countP (fun r => r.movieId = mid)

/-- The two filtering passes of _build_matrix_from_df: both count tables are
computed on the original frame, movies are filtered first, then users. -/
def filterDf (minMovie minUser : Nat) (df : List Rating) : List Rating :=
  let df1 := df.filter (fun r => minMovie ≤ countMovie df r.movieId)
  df1.filter (fun r => minUser ≤ countUser df r.userId)

/-- Insert into an ascending list, keeping it ascending. -/
def insertSorted (a : ℤ) : List ℤ → List ℤ
  | [] => [a]
  | b :: t => if a ≤ b then a :: b :: t else b :: insertSorted a t

/-- Ascending insertion sort; on duplicate-free id lists this is the
sorted() order of the source. -/
def sortAsc (l : List ℤ) : List ℤ := l.foldr insertSorted []

/-- Ascending deduplicated id list (sorted(df[col].unique())). -/
def sortedUnique (l : List ℤ) : List ℤ :=
  sortAsc l.dedup

/-- Value left in a cell by the population loop: the last row of the frame
for that user/movie pair wins, unseen pairs stay missing. -/
def lastRating (df : List Rating) (uid mid : ℤ) : Option ℚ :=
  ((df.filter (fun r => r.userId = uid ∧ r.movieId = mid)).getLast?).map Rating.rating

/-- Known cells of one matrix row, in column order. -/
def rowKnownRatings (movieCount : Nat) (R : Nat → Nat → Option ℚ) (u : Nat) : List ℚ :=
  (List.range movieCount).filterMap (fun j => R u j)

/-- Mean over the known cells only (np.nanmean over one row). -/
def nanmean (l : List ℚ) : ℚ := l.sum / l.length

/-- Typed failures of the collaborative-filtering engine, abstracting the
four distinct ValueError sites of collabfiltering.py. -/
inductive CFError where
  | insufficientData
  | noRatings
  | noNeighbors
  | noPredictions
deriving DecidableEq

/-- Embedding of DjangoCollaborativeFiltering._build_matrix_from_df. -/
def buildMatrix (minMovie minUser : Nat) (df : List Rating) : Except CFError CFState :=
  let df2 := filterDf minMovie minUser df
  if df2.isEmpty then .error .insufficientData
  else
    let uids := sortedUnique (df2.map Rating.userId)
    let mids := sortedUnique (df2.map Rating.movieId)
    let R : Nat → Nat → Option ℚ := fun u j =>
      (uids[u]?).bind (fun uid => (mids[j]?).bind (fun mid => lastRating df2 uid mid))
    .ok { userIds := uids
          movieIds := mids
          R := R
          means := fun u => nanmean (rowKnownRatings mids.length R u) }

/-- Number of known cells in row u of the built matrix. -/
def knownInRow (st : CFState) (u : Nat) : Nat :=
  (List.range st.movieIds.length).countP (fun j => (st.R u j).isSome)

/-- Number of known cells in column j of the built matrix. -/
def knownInCol (st : CFState) (j : Nat) : Nat :=
  (List.range st.userIds.length).countP (fun u => (st.R u j).isSome)

/-- Numeric value of a cell as a real number, with missing cells read as 0;
used only on columns where the cell is known. -/
noncomputable def val (st : CFState) (u j : Nat) : ℝ :=
  (((st.R u j).getD 0 : ℚ) : ℝ)

/-- Columns where both users have a known rating (the overlap mask). -/
def overlapCols (st : CFState) (u v : Nat) : List Nat :=
  (List.range st.movieIds.length).filter (fun j => (st.R u j).isSome && (st.R v j).isSome)

/-- Dot product of the two rows restricted to their overlap columns. -/
noncomputable def dotOver (st : CFState) (u v : Nat) : ℝ :=
  ((overlapCols st u v).map (fun j => val st u j * val st v j)).sum

/-- Sum of squares of the row of user w over a given column list. -/
noncomputable def sqNormOver (st : CFState) (cols : List Nat) (w : Nat) : ℝ :=
  ((cols.map (fun j => val st w j ^ 2)).sum)

/-- Product of the two Euclidean norms over the overlap columns, the
denominator of the base cosine similarity. -/
noncomputable def denomOf (st : CFState) (u v : Nat) : ℝ :=
  Real.sqrt (sqNormOver st (overlapCols st u v) u) *
    Real.sqrt (sqNormOver st (overlapCols st u v) v)

/-- One step of the agreement accumulator of _cosine: plus 2 when both users
rated the selected movie within one half star, plus 1 within one and a half
stars, otherwise unchanged; movies outside the index or with a missing
rating on either side contribute nothing. -/
def agreementStep (st : CFState) (u v : Nat) (acc : ℚ) (mid : ℤ) : ℚ :=
  match movieIdxOf st mid with
  | none => acc
  | some j =>
    match st.R u j, st.R v j with
    | some ru, some rv =>
      if |ru - rv| ≤ 1/2 then acc + 2
      else if |ru - rv| ≤ 3/2 then acc + 1
      else acc
    | _, _ => acc

/-- Agreement accumulator over the whole selected list. -/
def agreementScore (st : CFState) (u v : Nat) (sel : List ℤ) : ℚ :=
  sel.foldl (agreementStep st u v) 0

/-- Embedding of DjangoCollaborativeFiltering._cosine: zero when fewer than
two overlap columns or when the norm product vanishes, otherwise the base
cosine, boosted and clamped to the unit interval when a non-empty selected
list yields a positive agreement score. -/
noncomputable def cosine (st : CFState) (u v : Nat) (sel : List ℤ) : ℝ :=
  if (overlapCols st u v).length < 2 then 0
  else if denomOf st u v = 0 then 0
  else
    let base := dotOver st u v / denomOf st u v
    if sel.isEmpty then base
    else
      let score := agreementScore st u v sel
      if 0 < score then max 0 (min 1 (base + min 0.3 ((score : ℝ) * 0.05))) else base

/-- Embedding of DjangoCollaborativeFiltering._neighbors: boosted similarity
of u against every other row, keeping only strictly positive scores in row
order, stable sorted descending, truncated to the k best. -/
noncomputable def neighborsOf (k : Nat) (st : CFState) (u : Nat) (sel : List ℤ) : List (Nat × ℝ) :=
  let sims := ((List.range st.userIds.length).filter (fun v => v ≠ u)).filterMap
    (fun v => let s := cosine st u v sel; if 0 < s then some (v, s) else none)
  (sims.mergeSort (fun a b => b.2 ≤ a.2)).take k

/-- Accumulation loop shared by predict_single and _recommend_for_user:
running numerator and denominator of the mean-centred weighted average over
the neighbours that have a known rating in column j. -/
noncomputable def contrib (st : CFState) (j : Nat) (nbrs : List (Nat × ℝ)) : ℝ × ℝ :=
  nbrs.foldl
    (fun acc p =>
      match st.R p.1 j with
      | none => acc
      | some r => (acc.1 + p.2 * ((r : ℝ) - (st.means p.1 : ℝ)), acc.2 + |p.2|))
    (0, 0)

/-- Embedding of DjangoCollaborativeFiltering.predict_single, with the
matrix state threaded explicitly so that the temporary hide and restore of
the target cell is visible: the result pairs the optional prediction with
the matrix state after the call. -/
noncomputable def predictSingle (k : Nat) (st : CFState) (uid mid : ℤ) : Option ℝ × CFState :=
  match userIdxOf st uid, movieIdxOf st mid with
  | some u, some j =>
    let wasRated := (st.R u j).isSome
    let stored := st.R u j
    let st1 := if wasRated then setCell st u j none else st
    let userMean := st.means u
    let nbrs := neighborsOf k st1 u []
    if nbrs.isEmpty then
      (none, if wasRated then setCell st1 u j stored else st1)
    else
      let c := contrib st1 j nbrs
      let st2 := if wasRated then setCell st1 u j stored else st1
      if 0 < c.2 then (some ((userMean : ℝ) + c.1 / c.2), st2) else (none, st2)
  | _, _ => (none, st)

/-- Candidate predictions of _recommend_for_user: for every unrated column
of the target row with a positive denominator, the predicted value. -/
noncomputable def candidatePreds (st : CFState) (u : Nat) (nbrs : List (Nat × ℝ)) : List (Nat × ℝ) :=
  (List.range st.movieIds.length).filterMap (fun j =>
    if (st.R u j).isSome then none
    else
      let c := contrib st j nbrs
      if 0 < c.2 then some (j, (st.means u : ℝ) + c.1 / c.2) else none)

/-- Embedding of DjangoCollaborativeFiltering._recommend_for_user up to the
ranked candidate list: the three data-insufficiency failures, then the
candidates ranked by predicted value descending, already-selected movies
excluded, truncated to the top k.  The trailing metadata join against the
movie catalog is an external collaborator and attaches title and trust
fields without changing membership or order. -/
noncomputable def recommendForUser (k : Nat) (st : CFState) (uid : ℤ) (selected : List ℤ) (topK : Nat) :
    Except CFError (List (ℤ × ℝ)) :=
  match userIdxOf st uid with
  | none => .error .noRatings
  | some u =>
    let nbrs := neighborsOf k st u selected
    if nbrs.isEmpty then .error .noNeighbors
    else
      let preds := candidatePreds st u nbrs
      if preds.isEmpty then .error .noPredictions
      else
        let ranked := preds.mergeSort (fun a b => b.2 ≤ a.2)
        let pairs := ranked.map (fun p => (st.movieIds.getD p.1 0, p.2))
        .ok ((pairs.filter (fun q => q.1 ∉ selected)).take topK)

/-
Content-based engine (contentbase.py).  Strings are modelled at character
level so that lowering, trimming and substring search are the elementary
list operations the Python code performs on str values.  The fitted
scikit-learn nearest-neighbour index and the embedding matrix are external
collaborators, passed in as parameters; the code downstream of the
kneighbors call is embedded exactly.
-/

/-- Metadata bundle persisted with the artifacts: parallel arrays of movie
ids, titles and genre strings, indexed by embedding position. -/
structure ContentMeta where
  movieIds : List ℤ
  titles : List (List Char)
  genres : List (List Char)

/-- One emitted content recommendation record. -/
structure ContentRec where
  id : ℤ
  title : List Char
  genres : List Char
  score : ℝ

/-- Rounding to four decimal places, the round call applied to each score
before it is emitted. -/
noncomputable def round4 (x : ℝ) : ℝ :=
  ((round (x * 10000) : ℤ) : ℝ) / 10000

/-- Record built for the candidate at one embedding index, with the cosine
distance converted to the similarity score max 0 (1 - distance), rounded. -/
noncomputable def mkRec (meta : ContentMeta) (idx : Nat) (dist : ℝ) : ContentRec :=
  { id := meta.movieIds.getD idx 0
    title := meta.titles.getD idx []
    genres := meta.genres.getD idx []
    score := round4 (max 0 (1 - dist)) }

/-- Collection loop of recommend_content_based: walk the distance/index
pairs in the order returned by the nearest-neighbour query, skip indices of
the resolved input set, append a record otherwise, and stop as soon as the
accumulated list has reached top_k entries (the length test runs after the
append, exactly as in the source). -/
noncomputable def collectRecs (meta : ContentMeta) (seen : List Nat) (pairs : List (ℝ × Nat))
    (topK : Nat) (acc : List ContentRec) : List ContentRec :=
  match pairs with
  | [] => acc
  | (dist, idx) :: rest =>
    if idx ∈ seen then collectRecs meta seen rest topK acc
    else
      let acc2 := acc ++ [mkRec meta idx dist]
      if topK ≤ acc2.length then acc2 else collectRecs meta seen rest topK acc2

/-- Lowercase a character-level string. -/
def lowerStr (s : List Char) : List Char := s.map Char.toLower

/-- Strip leading and trailing whitespace, as str.strip does. -/
def stripStr (s : List Char) : List Char :=
  ((s.dropWhile Char.isWhitespace).reverse.dropWhile Char.isWhitespace).reverse

/-- Lookup in the id_to_index dictionary built by enumeration: the last
index carrying the id wins, as later dict insertions overwrite earlier
ones. -/
def idToIndexGet (mids : List ℤ) (mid : ℤ) : Option Nat :=
  ((List.range mids.length).filter (fun i => mids.getD i 0 = mid)).getLast?

/-- Lookup in the title_to_index dictionary keyed by lowercased title; the
last index carrying the key wins. -/
def titleKeyIndex (titles : List (List Char)) (key : List Char) : Option Nat :=
  ((List.range titles.length).filter (fun i => lowerStr (titles.getD i []) = key)).getLast?

/-- First index whose lowercased title contains the key as a contiguous
substring, the partial-match fallback of _ids_to_indices. -/
def substrFind (titles : List (List Char)) (key : List Char) : Option Nat :=
  (List.range titles.length).find? (fun i => decide (key <:+: lowerStr (titles.getD i [])))

/-- Resolution of one selected item in _ids_to_indices: an integer resolves
through the id dictionary; a string is stripped and lowercased, tried for
an exact title match and then for the first substring match; anything else
resolves to nothing. -/
def resolveOne (meta : ContentMeta) (s : ℤ ⊕ List Char) : Option Nat :=
  match s with
  | .inl i => idToIndexGet meta.movieIds i
  | .inr t =>
    let key := lowerStr (stripStr t)
    match titleKeyIndex meta.titles key with
    | some idx => some idx
    | none => substrFind meta.titles key

/-- Embedding of _ids_to_indices: per-item resolution, unresolvable items
silently dropped, order preserved. -/
def idsToIndices (sel : List (ℤ ⊕ List Char)) (meta : ContentMeta) : List Nat :=
  sel.filterMap (resolveOne meta)

/-- Embedding of recommend_content_based.  The embedding matrix emb, its
dimension d and the fitted nearest-neighbour query function nn are the
persisted external artifacts.  Nothing resolving means an empty result;
otherwise the resolved vectors are averaged, renormalised, the index is
queried for min 50 (top_k + resolved + 10) candidates and the collection
loop runs over its answer. -/
noncomputable def recommendContentBased (d : Nat) (emb : Nat → Nat → ℝ)
    (nn : (Nat → ℝ) → Nat → List (ℝ × Nat)) (meta : ContentMeta)
    (sel : List (ℤ ⊕ List Char)) (topK : Nat) : List ContentRec :=
  let indices := idsToIndices sel meta
  if indices.isEmpty then []
  else
    let avg := fun c => (indices.map (fun i => emb i c)).sum / (indices.length : ℝ)
    let nrm := Real.sqrt (((List.range d).map (fun c => avg c ^ 2)).sum)
    let q := fun c => if nrm = 0 then avg c else avg c / nrm
    let nQuery := min 50 (topK + indices.length + 10)
    collectRecs meta indices (nn q nQuery) topK []

/-
Concrete instances used to exercise the theorems below on explicit data.
-/

/-- A rating multiset on which the build succeeds although a retained
column keeps fewer known cells than the movie threshold: movies 1 and 2
each have two ratings and survive the movie pass, but users 2 and 3 have a
single rating each and are dropped afterwards. -/
def exRatings : List Rating :=
  [⟨1, 1, 5⟩, ⟨2, 1, 4⟩, ⟨1, 2, 3⟩, ⟨3, 2, 2⟩]

/-- The all-empty matrix state. -/
def emptyCF : CFState :=
  { userIds := [], movieIds := [], R := fun _ _ => none, means := fun _ => 0 }

/-- The state the builder produces on exRatings with both thresholds 2. -/
def builtSt : CFState := (buildMatrix 2 2 exRatings).toOption.getD emptyCF

/-- A small fully-known two-user, two-movie matrix state. -/
def wSt : CFState :=
  { userIds := [1, 2]
    movieIds := [10, 20]
    R := fun u j =>
      if u = 0 ∧ j = 0 then some 5
      else if u = 0 ∧ j = 1 then some 4
      else if u = 1 ∧ j = 0 then some 5
      else if u = 1 ∧ j = 1 then some 4
      else none
    means := fun u => if u = 0 then 9/2 else if u = 1 then 9/2 else 0 }

/-- A one-movie metadata bundle. -/
def cexMeta : ContentMeta :=
  { movieIds := [42], titles := [['a']], genres := [['g']] }

/-- A metadata bundle with one resolvable title. -/
def wMeta : ContentMeta :=
  { movieIds := [10], titles := [['a', 'l', 'p', 'h', 'a']], genres := [['d']] }

/-
Theorems.
-/

lemma setCell_restore (st : CFState) (u j : Nat) (x : Option ℚ) :
    setCell (setCell st u j x) u j (st.R u j) = st := by
  cases st with
  | mk uids mids R me =>
    simp only [setCell]
    congr 1
    funext a b
    by_cases h : a = u ∧ b = j
    · obtain ⟨rfl, rfl⟩ := h
      simp
    · simp [h]

lemma setCell_means (st : CFState) (u j : Nat) (x : Option ℚ) :
    (setCell st u j x).means = st.means := rfl

lemma setCell_R_ne (st : CFState) (u j : Nat) (x : Option ℚ) (a b : Nat) (h : a ≠ u) :
    (setCell st u j x).R a b = st.R a b := by
  simp only [setCell]
  rw [if_neg]
  intro hc
  exact h hc.1

/-- C2: on every outcome of predict_single the matrix state after the call
is exactly the matrix state before the call; in particular the true rating
temporarily hidden at the target cell is restored. -/
theorem predict_single_preserves_matrix (k : Nat) (st : CFState) (uid mid : ℤ) :
    (predictSingle k st uid mid).2 = st := by
  rw [predictSingle]
  cases hu : userIdxOf st uid with
  | none => rfl
  | some u =>
    cases hm : movieIdxOf st mid with
    | none => rfl
    | some j =>
      by_cases hw : (st.R u j).isSome
      · simp only [hw, if_true]
        split
        · exact setCell_restore st u j none
        · split
          · exact setCell_restore st u j none
          · exact setCell_restore st u j none
      · simp only [hw, Bool.false_eq_true, if_false]
        split
        · rfl
        · split <;> rfl

/-- C10: an unknown user id or movie id makes predict_single answer none
and leave the state untouched, while the recommend entry point instead
fails with the typed no-ratings error for an unknown user. -/
theorem predict_single_unknown_id (k : Nat) (st : CFState) (uid mid : ℤ) (sel : List ℤ) (topK : Nat)
    (h : userIdxOf st uid = none ∨ movieIdxOf st mid = none) :
    predictSingle k st uid mid = (none, st) ∧
      (userIdxOf st uid = none → recommendForUser k st uid sel topK = .error .noRatings) := by
  constructor
  · rcases h with h | h
    · rw [predictSingle, h]
    · cases hu : userIdxOf st uid with
      | none => rw [predictSingle, hu]
      | some u => rw [predictSingle, hu, h]
  · intro h0
    rw [recommendForUser, h0]

theorem predict_single_unknown_id_witness :
    predictSingle 30 wSt 99 10 = (none, wSt) ∧
      recommendForUser 30 wSt 99 [] 16 = .error .noRatings :=
  ⟨(predict_single_unknown_id 30 wSt 99 10 [] 16 (Or.inl (by decide))).1,
   (predict_single_unknown_id 30 wSt 99 10 [] 16 (Or.inl (by decide))).2 (by decide)⟩

lemma overlapCols_symm (st : CFState) (u v : Nat) :
    overlapCols st u v = overlapCols st v u := by
  unfold overlapCols
  exact List.filter_congr (fun j _ => Bool.and_comm _ _)

lemma dotOver_symm (st : CFState) (u v : Nat) :
    dotOver st u v = dotOver st v u := by
  unfold dotOver
  rw [overlapCols_symm]
  exact congrArg List.sum (List.map_congr_left (fun j _ => mul_comm _ _))

lemma denomOf_symm (st : CFState) (u v : Nat) :
    denomOf st u v = denomOf st v u := by
  unfold denomOf
  rw [overlapCols_symm, mul_comm]

lemma agreementStep_symm (st : CFState) (u v : Nat) (acc : ℚ) (mid : ℤ) :
    agreementStep st u v acc mid = agreementStep st v u acc mid := by
  unfold agreementStep
  cases hj : movieIdxOf st mid with
  | none => rfl
  | some j =>
    dsimp only
    cases hu : st.R u j with
    | none => cases hv : st.R v j <;> rfl
    | some ru =>
      cases hv : st.R v j with
      | none => rfl
      | some rv =>
        dsimp only
        rw [abs_sub_comm]

lemma agreementScore_symm (st : CFState) (u v : Nat) (sel : List ℤ) :
    agreementScore st u v sel = agreementScore st v u sel := by
  unfold agreementScore
  suffices h : ∀ acc : ℚ, sel.foldl (agreementStep st u v) acc = sel.foldl (agreementStep st v u) acc from h 0
  induction sel with
  | nil => intro acc; rfl
  | cons m ms ih =>
    intro acc
    rw [List.foldl_cons, List.foldl_cons, agreementStep_symm, ih]

/-- C6: similarity is symmetric in its two user arguments, both without
boost and for every selected-movie list, as the boost is computed
identically for either order. -/
theorem cosine_symmetric (st : CFState) (u v : Nat) (sel : List ℤ) :
    cosine st u v sel = cosine st v u sel := by
  unfold cosine
  rw [overlapCols_symm, denomOf_symm, dotOver_symm, agreementScore_symm]

lemma val_nonneg (st : CFState) (hpos : ∀ a b r, st.R a b = some r → 0 ≤ r) (w j : Nat) :
    0 ≤ val st w j := by
  unfold val
  cases h : st.R w j with
  | none => simp
  | some r =>
    simp only [Option.getD_some]
    exact_mod_cast hpos w j r h

lemma dotOver_nonneg (st : CFState) (hpos : ∀ a b r, st.R a b = some r → 0 ≤ r) (u v : Nat) :
    0 ≤ dotOver st u v := by
  unfold dotOver
  apply List.sum_nonneg
  intro x hx
  obtain ⟨j, _, rfl⟩ := List.mem_map.mp hx
  exact mul_nonneg (val_nonneg st hpos u j) (val_nonneg st hpos v j)

lemma sqNormOver_nonneg (st : CFState) (cols : List Nat) (w : Nat) :
    0 ≤ sqNormOver st cols w := by
  unfold sqNormOver
  apply List.sum_nonneg
  intro x hx
  obtain ⟨j, _, rfl⟩ := List.mem_map.mp hx
  exact sq_nonneg _

lemma denomOf_nonneg (st : CFState) (u v : Nat) : 0 ≤ denomOf st u v :=
  mul_nonneg (Real.sqrt_nonneg _) (Real.sqrt_nonneg _)

/-- Cauchy-Schwarz for the overlap-restricted rows: the dot product never
exceeds the product of the two norms. -/
lemma dotOver_le_denomOf (st : CFState) (u v : Nat) : dotOver st u v ≤ denomOf st u v := by
  have hnd : (overlapCols st u v).Nodup := (List.nodup_range _).filter _
  have hcs := Finset.sum_mul_sq_le_sq_mul_sq (overlapCols st u v).toFinset
    (fun j => val st u j) (fun j => val st v j)
  rw [List.sum_toFinset _ hnd, List.sum_toFinset _ hnd, List.sum_toFinset _ hnd] at hcs
  have hsq : dotOver st u v ^ 2 ≤
      sqNormOver st (overlapCols st u v) u * sqNormOver st (overlapCols st u v) v := by
    unfold dotOver sqNormOver
    exact hcs
  calc dotOver st u v ≤ |dotOver st u v| := le_abs_self _
    _ = Real.sqrt (dotOver st u v ^ 2) := (Real.sqrt_sq_eq_abs _).symm
    _ ≤ Real.sqrt (sqNormOver st (overlapCols st u v) u * sqNormOver st (overlapCols st u v) v) :=
        Real.sqrt_le_sqrt hsq
    _ = denomOf st u v := by
        unfold denomOf
        exact Real.sqrt_mul (sqNormOver_nonneg st _ u) _

/-- C7: on a matrix of nonnegative ratings the similarity always lies in
the unit interval, is exactly 0 when the two rows share fewer than two
known columns, is exactly 0 when the product of the overlap-restricted
norms vanishes, and is total (never raises). -/
theorem cosine_in_unit_interval (st : CFState)
    (hpos : ∀ a b r, st.R a b = some r → 0 ≤ r) (u v : Nat) (sel : List ℤ) :
    0 ≤ cosine st u v sel ∧ cosine st u v sel ≤ 1 ∧
      ((overlapCols st u v).length < 2 → cosine st u v sel = 0) ∧
      (denomOf st u v = 0 → cosine st u v sel = 0) := by
  unfold cosine
  by_cases h1 : (overlapCols st u v).length < 2
  · simp [h1]
  by_cases h2 : denomOf st u v = 0
  · simp [h1, h2]
  have hd0 : 0 < denomOf st u v := lt_of_le_of_ne (denomOf_nonneg st u v) (Ne.symm h2)
  have hbase0 : 0 ≤ dotOver st u v / denomOf st u v :=
    div_nonneg (dotOver_nonneg st hpos u v) hd0.le
  have hbase1 : dotOver st u v / denomOf st u v ≤ 1 :=
    (div_le_one hd0).mpr (dotOver_le_denomOf st u v)
  simp only [if_neg h1, if_neg h2]
  refine ⟨?_, ?_, fun hc => absurd hc h1, fun hc => absurd hc h2⟩
  · split
    · exact hbase0
    · split
      · exact le_max_left 0 _
      · exact hbase0
  · split
    · exact hbase1
    · split
      · exact max_le zero_le_one (min_le_left 1 _)
      · exact hbase1

lemma wSt_nonneg : ∀ a b r, wSt.R a b = some r → 0 ≤ r := by
  intro a b r h
  simp only [wSt] at h
  split_ifs at h <;> simp_all <;> linarith

theorem cosine_in_unit_interval_witness :
    0 ≤ cosine wSt 0 1 [] ∧ cosine wSt 0 1 [] ≤ 1 ∧
      ((overlapCols wSt 0 1).length < 2 → cosine wSt 0 1 [] = 0) ∧
      (denomOf wSt 0 1 = 0 → cosine wSt 0 1 [] = 0) :=
  cosine_in_unit_interval wSt wSt_nonneg 0 1 []

lemma agreementStep_ge (st : CFState) (u v : Nat) (acc : ℚ) (mid : ℤ) :
    acc ≤ agreementStep st u v acc mid := by
  unfold agreementStep
  cases hj : movieIdxOf st mid with
  | none => exact le_rfl
  | some j =>
    dsimp only
    cases hu : st.R u j with
    | none => cases hv : st.R v j <;> exact le_rfl
    | some ru =>
      cases hv : st.R v j with
      | none => exact le_rfl
      | some rv =>
        dsimp only
        split_ifs <;> linarith

lemma foldl_agreement_le (st : CFState) (u v : Nat) (sel : List ℤ) :
    ∀ acc : ℚ, acc ≤ sel.foldl (agreementStep st u v) acc := by
  induction sel with
  | nil => intro acc; exact le_rfl
  | cons m ms ih =>
    intro acc
    rw [List.foldl_cons]
    exact le_trans (agreementStep_ge st u v acc m) (ih _)

lemma agreementScore_nonneg (st : CFState) (u v : Nat) (sel : List ℤ) :
    0 ≤ agreementScore st u v sel :=
  foldl_agreement_le st u v sel 0

lemma agreementScore_append_agree (st : CFState) (u v : Nat) (sel : List ℤ) (mid : ℤ)
    (j : Nat) (ru rv : ℚ) (hj : movieIdxOf st mid = some j)
    (hru : st.R u j = some ru) (hrv : st.R v j = some rv) (hd : |ru - rv| ≤ 1/2) :
    agreementScore st u v (sel ++ [mid]) = agreementScore st u v sel + 2 := by
  unfold agreementScore
  rw [List.foldl_append, List.foldl_cons, List.foldl_nil]
  unfold agreementStep
  rw [hj]
  dsimp only
  rw [hru, hrv]
  dsimp only
  rw [if_pos hd]

lemma cosine_eq_of_denom_pos (st : CFState) (u v : Nat) (sel : List ℤ)
    (h1 : ¬ (overlapCols st u v).length < 2) (h2 : ¬ denomOf st u v = 0) :
    cosine st u v sel =
      if sel.isEmpty then dotOver st u v / denomOf st u v
      else if 0 < agreementScore st u v sel then
        max 0 (min 1 (dotOver st u v / denomOf st u v +
          min 0.3 ((agreementScore st u v sel : ℝ) * 0.05)))
      else dotOver st u v / denomOf st u v := by
  unfold cosine
  rw [if_neg h1, if_neg h2]

/-- C5: appending to the selected list a movie on which both users agree
within half a star never decreases their similarity, and the boosted
similarity never exceeds 1. -/
theorem boost_monotone_capped (st : CFState) (u v : Nat) (sel : List ℤ) (mid : ℤ)
    (j : Nat) (ru rv : ℚ) (hj : movieIdxOf st mid = some j)
    (hru : st.R u j = some ru) (hrv : st.R v j = some rv) (hd : |ru - rv| ≤ 1/2) :
    cosine st u v sel ≤ cosine st u v (sel ++ [mid]) ∧ cosine st u v (sel ++ [mid]) ≤ 1 := by
  by_cases h1 : (overlapCols st u v).length < 2
  · constructor <;> simp [cosine, h1]
  by_cases h2 : denomOf st u v = 0
  · constructor <;> simp [cosine, h1, h2]
  have happ := agreementScore_append_agree st u v sel mid j ru rv hj hru hrv hd
  have hs0 : (0:ℚ) ≤ agreementScore st u v sel := agreementScore_nonneg st u v sel
  have hs0R : (0:ℝ) ≤ (agreementScore st u v sel : ℝ) := by exact_mod_cast hs0
  have hd0 : 0 < denomOf st u v := lt_of_le_of_ne (denomOf_nonneg st u v) (Ne.symm h2)
  have hbase1 : dotOver st u v / denomOf st u v ≤ 1 :=
    (div_le_one hd0).mpr (dotOver_le_denomOf st u v)
  rw [cosine_eq_of_denom_pos st u v sel h1 h2,
    cosine_eq_of_denom_pos st u v (sel ++ [mid]) h1 h2, happ]
  rw [if_neg (by simp : ¬ ((sel ++ [mid]).isEmpty = true))]
  rw [if_pos (by linarith : (0:ℚ) < agreementScore st u v sel + 2)]
  push_cast
  set base := dotOver st u v / denomOf st u v with hbdef
  set sc := (agreementScore st u v sel : ℝ) with hscdef
  have hb2 : (0:ℝ) ≤ min 0.3 ((sc + 2) * 0.05) :=
    le_min (by norm_num) (by nlinarith)
  have hbase_le : base ≤ max 0 (min 1 (base + min 0.3 ((sc + 2) * 0.05))) :=
    le_trans (le_min hbase1 (by linarith)) (le_max_right _ _)
  constructor
  · by_cases hse : sel.isEmpty
    · rw [if_pos hse]
      exact hbase_le
    · rw [if_neg hse]
      by_cases hsp : (0:ℚ) < agreementScore st u v sel
      · rw [if_pos hsp]
        have hb12 : min 0.3 (sc * 0.05) ≤ min 0.3 ((sc + 2) * 0.05) :=
          min_le_min le_rfl (by nlinarith)
        exact max_le_max le_rfl (min_le_min le_rfl (by linarith))
      · rw [if_neg hsp]
        exact hbase_le
  · exact max_le zero_le_one (min_le_left 1 _)

theorem boost_monotone_capped_witness :
    cosine wSt 0 1 [] ≤ cosine wSt 0 1 ([] ++ [10]) ∧ cosine wSt 0 1 ([] ++ [10]) ≤ 1 :=
  boost_monotone_capped wSt 0 1 [] 10 0 5 5 (by decide) (by decide) (by decide) (by norm_num)

lemma contrib_init (st : CFState) (j : Nat) (l : List (Nat × ℝ)) (a b : ℝ) :
    l.foldl
      (fun acc p =>
        match st.R p.1 j with
        | none => acc
        | some r => (acc.1 + p.2 * ((r : ℝ) - (st.means p.1 : ℝ)), acc.2 + |p.2|))
      (a, b) =
    (a + ((l.filter (fun p => (st.R p.1 j).isSome)).map
        (fun p => p.2 * (val st p.1 j - (st.means p.1 : ℝ)))).sum,
     b + ((l.filter (fun p => (st.R p.1 j).isSome)).map (fun p => |p.2|)).sum) := by
  induction l generalizing a b with
  | nil => simp
  | cons p rest ih =>
    rw [List.foldl_cons, List.filter_cons]
    dsimp only
    cases hc : st.R p.1 j with
    | none =>
      simp only [Option.isSome_none, Bool.false_eq_true, if_false]
      exact ih a b
    | some r =>
      simp only [Option.isSome_some, if_true]
      rw [ih, List.map_cons, List.sum_cons, List.map_cons, List.sum_cons]
      have hval : val st p.1 j = (r : ℝ) := by simp [val, hc]
      rw [hval]
      simp only [Prod.mk.injEq]
      constructor <;> ring

lemma contrib_eq (st : CFState) (j : Nat) (l : List (Nat × ℝ)) :
    contrib st j l =
      (((l.filter (fun p => (st.R p.1 j).isSome)).map
          (fun p => p.2 * (val st p.1 j - (st.means p.1 : ℝ)))).sum,
       ((l.filter (fun p => (st.R p.1 j).isSome)).map (fun p => |p.2|)).sum) := by
  unfold contrib
  rw [contrib_init]
  simp

lemma neighborsOf_mem (k : Nat) (st : CFState) (u : Nat) (sel : List ℤ) (p : Nat × ℝ)
    (hp : p ∈ neighborsOf k st u sel) : p.1 ≠ u ∧ 0 < p.2 := by
  unfold neighborsOf at hp
  have hp2 := List.mem_of_mem_take hp
  rw [List.mem_mergeSort, List.mem_filterMap] at hp2
  obtain ⟨v, hv, he⟩ := hp2
  dsimp only at he
  by_cases h : 0 < cosine st u v sel
  · rw [if_pos h] at he
    have hpe := Option.some.inj he
    obtain ⟨hvr, hvne⟩ := List.mem_filter.mp hv
    rw [← hpe]
    exact ⟨by simpa using hvne, h⟩
  · rw [if_neg h] at he
    exact absurd he (by simp)

/-- C3: for a known user and a known movie, predict_single returns exactly
the user mean plus the mean-centred weighted average over those unboosted
top-k neighbours (computed with the target cell hidden) that have a known
rating for the movie, and none when the user has no positive-similarity
neighbour or no neighbour has rated the movie; the embedding is a total
function, so neither case raises. -/
theorem predict_single_formula (k : Nat) (st st1 : CFState) (uid mid : ℤ) (u j : Nat)
    (nbrs raters : List (Nat × ℝ))
    (hu : userIdxOf st uid = some u) (hm : movieIdxOf st mid = some j)
    (h1 : st1 = if (st.R u j).isSome then setCell st u j none else st)
    (hn : nbrs = neighborsOf k st1 u [])
    (hr : raters = nbrs.filter (fun p => (st.R p.1 j).isSome)) :
    (predictSingle k st uid mid).1 =
      if raters.isEmpty then none
      else
        some ((st.means u : ℝ) +
          (raters.map (fun p => p.2 * (val st p.1 j - (st.means p.1 : ℝ)))).sum /
          (raters.map (fun p => |p.2|)).sum) := by
  have hmem : ∀ p ∈ nbrs, p.1 ≠ u ∧ 0 < p.2 := by
    intro p hp
    exact neighborsOf_mem k st1 u [] p (hn ▸ hp)
  have hR : ∀ p ∈ nbrs, st1.R p.1 j = st.R p.1 j := by
    intro p hp
    rw [h1]
    split
    · exact setCell_R_ne st u j none p.1 j (hmem p hp).1
    · rfl
  have hmeans : st1.means = st.means := by
    rw [h1]; split <;> rfl
  have hraters : nbrs.filter (fun p => (st1.R p.1 j).isSome) = raters := by
    rw [hr]
    exact List.filter_congr (fun p hp => by rw [hR p hp])
  have hub : ∀ p ∈ raters, p ∈ nbrs := by
    intro p hp
    rw [hr] at hp
    exact (List.mem_filter.mp hp).1
  have hvals : raters.map (fun p => p.2 * (val st1 p.1 j - (st1.means p.1 : ℝ))) =
      raters.map (fun p => p.2 * (val st p.1 j - (st.means p.1 : ℝ))) := by
    apply List.map_congr_left
    intro p hp
    rw [hmeans]
    unfold val
    rw [hR p (hub p hp)]
  rw [predictSingle, hu, hm]
  dsimp only
  rw [← h1, ← hn]
  by_cases hne : nbrs.isEmpty
  · rw [if_pos hne]
    have hre : raters = [] := by
      rw [hr, List.isEmpty_iff.mp hne]
      rfl
    rw [hre]
    rfl
  · rw [if_neg hne]
    rw [contrib_eq, hraters, hvals]
    dsimp only
    by_cases hre : raters.isEmpty
    · have hre2 : raters = [] := List.isEmpty_iff.mp hre
      rw [hre2]
      simp
    · have hne2 : raters ≠ [] := by
        intro hc
        rw [hc] at hre
        exact hre rfl
      have hden : 0 < (raters.map (fun p => |p.2|)).sum := by
        apply List.sum_pos
        · intro x hx
          obtain ⟨p, hp, rfl⟩ := List.mem_map.mp hx
          exact abs_pos.mpr (ne_of_gt (hmem p (hub p hp)).2)
        · intro hc
          exact hne2 (List.map_eq_nil.mp hc)
      rw [if_pos hden, if_neg hre]

theorem predict_single_formula_witness :
    (predictSingle 30 wSt 1 10).1 =
      if ((neighborsOf 30 (if (wSt.R 0 0).isSome then setCell wSt 0 0 none else wSt) 0 []).filter
          (fun p => (wSt.R p.1 0).isSome)).isEmpty then none
      else
        some ((wSt.means 0 : ℝ) +
          (((neighborsOf 30 (if (wSt.R 0 0).isSome then setCell wSt 0 0 none else wSt) 0 []).filter
              (fun p => (wSt.R p.1 0).isSome)).map
            (fun p => p.2 * (val wSt p.1 0 - (wSt.means p.1 : ℝ)))).sum /
          (((neighborsOf 30 (if (wSt.R 0 0).isSome then setCell wSt 0 0 none else wSt) 0 []).filter
              (fun p => (wSt.R p.1 0).isSome)).map (fun p => |p.2|)).sum) :=
  predict_single_formula 30 wSt _ 1 10 0 0 _ _ (by decide) (by decide) rfl rfl rfl

lemma contrib_den_nonneg (st : CFState) (j : Nat) (l : List (Nat × ℝ)) :
    0 ≤ (contrib st j l).2 := by
  rw [contrib_eq]
  apply List.sum_nonneg
  intro x hx
  obtain ⟨p, _, rfl⟩ := List.mem_map.mp hx
  exact abs_nonneg _

lemma candidatePreds_eq_nil (st : CFState) (u : Nat) (nbrs : List (Nat × ℝ)) :
    candidatePreds st u nbrs = [] ↔
      ∀ j < st.movieIds.length, (st.R u j).isSome ∨ (contrib st j nbrs).2 = 0 := by
  unfold candidatePreds
  rw [List.filterMap_eq_nil]
  constructor
  · intro h j hj
    have hfj := h j (List.mem_range.mpr hj)
    dsimp only at hfj
    by_cases hs : (st.R u j).isSome
    · exact Or.inl hs
    · right
      rw [if_neg hs] at hfj
      by_cases hc : 0 < (contrib st j nbrs).2
      · rw [if_pos hc] at hfj
        exact absurd hfj (by simp)
      · exact le_antisymm (not_lt.mp hc) (contrib_den_nonneg st j nbrs)
  · intro h j hjmem
    dsimp only
    by_cases hs : (st.R u j).isSome
    · rw [if_pos hs]
    · rw [if_neg hs]
      rcases h j (List.mem_range.mp hjmem) with hs2 | hc
      · exact absurd hs2 hs
      · rw [if_neg (by rw [hc]; exact lt_irrefl 0)]

lemma recommendForUser_none (k : Nat) (st : CFState) (uid : ℤ) (sel : List ℤ) (topK : Nat)
    (hu : userIdxOf st uid = none) :
    recommendForUser k st uid sel topK = .error .noRatings := by
  rw [recommendForUser, hu]

lemma recommendForUser_some (k : Nat) (st : CFState) (uid : ℤ) (sel : List ℤ) (topK : Nat)
    (u : Nat) (hu : userIdxOf st uid = some u) :
    recommendForUser k st uid sel topK =
      if (neighborsOf k st u sel).isEmpty then .error .noNeighbors
      else if (candidatePreds st u (neighborsOf k st u sel)).isEmpty then .error .noPredictions
      else .ok
        (((((candidatePreds st u (neighborsOf k st u sel)).mergeSort
            (fun a b => b.2 ≤ a.2)).map (fun p => (st.movieIds.getD p.1 0, p.2))).filter
              (fun q => q.1 ∉ sel)).take topK) := by
  rw [recommendForUser, hu]

/-- C4: the collaborative recommend operation fails with the no-ratings
error exactly when the target user is unknown to the matrix, with the
no-neighbours error exactly when the boosted similarity search over the
other rows is empty, with the no-predictions error exactly when every
movie the user has not rated lacks a contributing neighbour, and returns a
ranked list whenever none of the three insufficiency situations holds. -/
theorem recommend_error_taxonomy (k : Nat) (st : CFState) (uid : ℤ) (sel : List ℤ) (topK : Nat) :
    (recommendForUser k st uid sel topK = .error .noRatings ↔ userIdxOf st uid = none) ∧
    (recommendForUser k st uid sel topK = .error .noNeighbors ↔
      ∃ u, userIdxOf st uid = some u ∧ neighborsOf k st u sel = []) ∧
    (recommendForUser k st uid sel topK = .error .noPredictions ↔
      ∃ u, userIdxOf st uid = some u ∧ neighborsOf k st u sel ≠ [] ∧
        ∀ j < st.movieIds.length,
          (st.R u j).isSome ∨ (contrib st j (neighborsOf k st u sel)).2 = 0) ∧
    ((∃ u, userIdxOf st uid = some u ∧ neighborsOf k st u sel ≠ [] ∧
        ∃ j < st.movieIds.length,
          ¬ (st.R u j).isSome ∧ 0 < (contrib st j (neighborsOf k st u sel)).2) →
      ∃ l, recommendForUser k st uid sel topK = .ok l) := by
  cases hu : userIdxOf st uid with
  | none =>
    rw [recommendForUser_none k st uid sel topK hu]
    refine ⟨by simp, by simp, by simp, ?_⟩
    rintro ⟨u2, hu2, _⟩
    exact absurd hu2 (by simp)
  | some u =>
    rw [recommendForUser_some k st uid sel topK u hu]
    by_cases hn : (neighborsOf k st u sel).isEmpty
    · have hnil : neighborsOf k st u sel = [] := List.isEmpty_iff.mp hn
      rw [if_pos hn]
      refine ⟨by simp, ?_, ?_, ?_⟩
      · constructor
        · intro _
          exact ⟨u, rfl, hnil⟩
        · intro _
          rfl
      · constructor
        · intro h
          exact absurd h (by simp)
        · rintro ⟨u2, hu2, hne, _⟩
          cases Option.some.inj hu2
          exact absurd hnil hne
      · rintro ⟨u2, hu2, hne, _⟩
        cases Option.some.inj hu2
        exact absurd hnil hne
    · have hnne : neighborsOf k st u sel ≠ [] := by
        intro hc
        rw [hc] at hn
        exact hn rfl
      rw [if_neg hn]
      by_cases hp : (candidatePreds st u (neighborsOf k st u sel)).isEmpty
      · rw [if_pos hp]
        refine ⟨by simp, ?_, ?_, ?_⟩
        · constructor
          · intro h
            exact absurd h (by simp)
          · rintro ⟨u2, hu2, hnil2⟩
            cases Option.some.inj hu2
            exact absurd hnil2 hnne
        · constructor
          · intro _
            exact ⟨u, rfl, hnne, (candidatePreds_eq_nil st u _).mp (List.isEmpty_iff.mp hp)⟩
          · intro _
            rfl
        · rintro ⟨u2, hu2, _, j, hj, hnot, hcpos⟩
          cases Option.some.inj hu2
          rcases (candidatePreds_eq_nil st u _).mp (List.isEmpty_iff.mp hp) j hj with hs | hc
          · exact absurd hs hnot
          · rw [hc] at hcpos
            exact absurd hcpos (lt_irrefl 0)
      · rw [if_neg hp]
        refine ⟨by simp, ?_, ?_, ?_⟩
        · constructor
          · intro h
            exact absurd h (by simp)
          · rintro ⟨u2, hu2, hnil2⟩
            cases Option.some.inj hu2
            exact absurd hnil2 hnne
        · constructor
          · intro h
            exact absurd h (by simp)
          · rintro ⟨u2, hu2, _, hall⟩
            cases Option.some.inj hu2
            have := (candidatePreds_eq_nil st u _).mpr hall
            rw [this] at hp
            exact absurd rfl hp
        · intro _
          exact ⟨_, rfl⟩

theorem recommend_error_taxonomy_witness :
    recommendForUser 30 wSt 99 [] 16 = .error .noRatings :=
  (recommend_error_taxonomy 30 wSt 99 [] 16).1.mpr (by decide)

lemma mem_insertSorted (a b : ℤ) (l : List ℤ) : a ∈ insertSorted b l ↔ a = b ∨ a ∈ l := by
  induction l with
  | nil => simp [insertSorted]
  | cons c t ih =>
    unfold insertSorted
    split_ifs with h
    · simp [List.mem_cons]
    · simp only [List.mem_cons, ih]
      tauto

lemma mem_sortAsc (l : List ℤ) (a : ℤ) : a ∈ sortAsc l ↔ a ∈ l := by
  induction l with
  | nil => simp [sortAsc]
  | cons b t ih =>
    unfold sortAsc at ih ⊢
    rw [List.foldr_cons, mem_insertSorted, ih, List.mem_cons]

lemma mem_sortedUnique (l : List ℤ) (a : ℤ) : a ∈ sortedUnique l ↔ a ∈ l := by
  unfold sortedUnique
  rw [mem_sortAsc, List.mem_dedup]

lemma filterDf_mem (minMovie minUser : Nat) (df : List Rating) (r : Rating)
    (hr : r ∈ filterDf minMovie minUser df) :
    r ∈ df ∧ minMovie ≤ countMovie df r.movieId ∧ minUser ≤ countUser df r.userId := by
  unfold filterDf at hr
  have h2 := List.mem_filter.mp hr
  have h1 := List.mem_filter.mp h2.1
  exact ⟨h1.1, by simpa using h1.2, by simpa using h2.2⟩

lemma buildMatrix_ok (minMovie minUser : Nat) (df : List Rating) (st : CFState)
    (h : buildMatrix minMovie minUser df = .ok st) :
    st.userIds = sortedUnique ((filterDf minMovie minUser df).map Rating.userId) ∧
    st.movieIds = sortedUnique ((filterDf minMovie minUser df).map Rating.movieId) ∧
    ∀ u j : Nat, ∀ uid mid : ℤ, st.userIds[u]? = some uid → st.movieIds[j]? = some mid →
      st.R u j = lastRating (filterDf minMovie minUser df) uid mid := by
  unfold buildMatrix at h
  by_cases he : (filterDf minMovie minUser df).isEmpty
  · rw [if_pos he] at h
    exact absurd h (by simp)
  · rw [if_neg he] at h
    have h2 := Except.ok.inj h
    subst h2
    refine ⟨rfl, rfl, ?_⟩
    intro u j uid mid h1 h2
    dsimp only
    rw [h1, h2]
    rfl

/-- C1 (amended): on every accepted rating multiset, each retained user
occurs in at least min_user_ratings input ratings and keeps at least one
known cell in its row, and each retained movie occurs in at least
min_movie_ratings input ratings and keeps at least one known cell in its
column.  The original bound on cells of the built matrix fails, because
both count tables are taken on the unfiltered frame and the user pass can
remove ratings that the movie pass had counted (and conversely); see the
counterexample. -/
theorem build_retained_have_input_counts (minMovie minUser : Nat) (df : List Rating) (st : CFState)
    (h : buildMatrix minMovie minUser df = .ok st) :
    (∀ u, u < st.userIds.length →
        minUser ≤ countUser df (st.userIds.getD u 0) ∧ 1 ≤ knownInRow st u) ∧
    (∀ j, j < st.movieIds.length →
        minMovie ≤ countMovie df (st.movieIds.getD j 0) ∧ 1 ≤ knownInCol st j) := by
  obtain ⟨hui, hmi, hRc⟩ := buildMatrix_ok minMovie minUser df st h
  constructor
  · intro u hu
    set a := st.userIds.getD u 0 with ha
    have hmemu : a ∈ st.userIds := by
      rw [ha, List.getD_eq_getElem _ _ hu]
      exact List.getElem_mem hu
    have hmap : a ∈ (filterDf minMovie minUser df).map Rating.userId := by
      rw [← mem_sortedUnique, ← hui]
      exact hmemu
    obtain ⟨r, hr, hru⟩ := List.mem_map.mp hmap
    refine ⟨?_, ?_⟩
    · have := (filterDf_mem minMovie minUser df r hr).2.2
      rw [hru] at this
      exact this
    · have hmm : r.movieId ∈ st.movieIds := by
        rw [hmi, mem_sortedUnique]
        exact List.mem_map.mpr ⟨r, hr, rfl⟩
      have hjlt : st.movieIds.indexOf r.movieId < st.movieIds.length :=
        List.indexOf_lt_length.mpr hmm
      have h1 : st.userIds[u]? = some a := by
        rw [List.getElem?_eq_getElem hu, ha, List.getD_eq_getElem _ _ hu]
      have h2 : st.movieIds[st.movieIds.indexOf r.movieId]? = some r.movieId := by
        rw [List.getElem?_eq_getElem hjlt, List.getElem_indexOf hjlt]
      have hcell := hRc u (st.movieIds.indexOf r.movieId) _ _ h1 h2
      have hne : (filterDf minMovie minUser df).filter
          (fun x => x.userId = a ∧ x.movieId = r.movieId) ≠ [] :=
        List.ne_nil_of_mem (List.mem_filter.mpr ⟨hr, by simp [hru]⟩)
      have hlast : (st.R u (st.movieIds.indexOf r.movieId)).isSome := by
        rw [hcell]
        unfold lastRating
        rw [Option.isSome_map', List.getLast?_isSome]
        exact hne
      unfold knownInRow
      exact List.countP_pos.mpr ⟨st.movieIds.indexOf r.movieId, List.mem_range.mpr hjlt, hlast⟩
  · intro j hj
    set a := st.movieIds.getD j 0 with ha
    have hmemm : a ∈ st.movieIds := by
      rw [ha, List.getD_eq_getElem _ _ hj]
      exact List.getElem_mem hj
    have hmap : a ∈ (filterDf minMovie minUser df).map Rating.movieId := by
      rw [← mem_sortedUnique, ← hmi]
      exact hmemm
    obtain ⟨r, hr, hrm⟩ := List.mem_map.mp hmap
    refine ⟨?_, ?_⟩
    · have := (filterDf_mem minMovie minUser df r hr).2.1
      rw [hrm] at this
      exact this
    · have hmu : r.userId ∈ st.userIds := by
        rw [hui, mem_sortedUnique]
        exact List.mem_map.mpr ⟨r, hr, rfl⟩
      have hult : st.userIds.indexOf r.userId < st.userIds.length :=
        List.indexOf_lt_length.mpr hmu
      have h1 : st.userIds[st.userIds.indexOf r.userId]? = some r.userId := by
        rw [List.getElem?_eq_getElem hult, List.getElem_indexOf hult]
      have h2 : st.movieIds[j]? = some a := by
        rw [List.getElem?_eq_getElem hj, ha, List.getD_eq_getElem _ _ hj]
      have hcell := hRc (st.userIds.indexOf r.userId) j _ _ h1 h2
      have hne : (filterDf minMovie minUser df).filter
          (fun x => x.userId = r.userId ∧ x.movieId = a) ≠ [] :=
        List.ne_nil_of_mem (List.mem_filter.mpr ⟨hr, by simp [hrm]⟩)
      have hlast : (st.R (st.userIds.indexOf r.userId) j).isSome := by
        rw [hcell]
        unfold lastRating
        rw [Option.isSome_map', List.getLast?_isSome]
        exact hne
      unfold knownInCol
      exact List.countP_pos.mpr ⟨st.userIds.indexOf r.userId, List.mem_range.mpr hult, hlast⟩

theorem build_retained_counts_witness :
    (∀ u, u < builtSt.userIds.length →
        2 ≤ countUser exRatings (builtSt.userIds.getD u 0) ∧ 1 ≤ knownInRow builtSt u) ∧
    (∀ j, j < builtSt.movieIds.length →
        2 ≤ countMovie exRatings (builtSt.movieIds.getD j 0) ∧ 1 ≤ knownInCol builtSt j) :=
  build_retained_have_input_counts 2 2 exRatings builtSt rfl

/-- C1 counterexample: on exRatings with both minimums 2 the build
succeeds, movies 1 and 2 are retained, yet each retained column keeps a
single known cell, so the claimed bound of min_movie_ratings known cells
per retained column evaluates to false. -/
theorem build_min_count_counterexample :
    ((buildMatrix 2 2 exRatings).toOption.map
        (fun st => (st.movieIds, knownInCol st 0, knownInCol st 1))) = some ([1, 2], 1, 1) ∧
    ((buildMatrix 2 2 exRatings).toOption.map
        (fun st => decide (∀ j, j < st.movieIds.length → 2 ≤ knownInCol st j))) = some false := by
  decide

lemma collectRecs_nil (meta : ContentMeta) (seen : List Nat) (topK : Nat)
    (acc : List ContentRec) : collectRecs meta seen [] topK acc = acc := rfl

lemma collectRecs_cons (meta : ContentMeta) (seen : List Nat) (topK : Nat)
    (acc : List ContentRec) (dist : ℝ) (idx : Nat) (rest : List (ℝ × Nat)) :
    collectRecs meta seen ((dist, idx) :: rest) topK acc =
      if idx ∈ seen then collectRecs meta seen rest topK acc
      else if topK ≤ (acc ++ [mkRec meta idx dist]).length then acc ++ [mkRec meta idx dist]
      else collectRecs meta seen rest topK (acc ++ [mkRec meta idx dist]) := rfl

lemma collectRecs_acc (meta : ContentMeta) (seen : List Nat) (topK : Nat) :
    ∀ (pairs : List (ℝ × Nat)) (acc : List ContentRec), acc.length < topK →
      collectRecs meta seen pairs topK acc =
        acc ++ ((pairs.filter (fun p => p.2 ∉ seen)).take (topK - acc.length)).map
          (fun p => mkRec meta p.2 p.1) := by
  intro pairs
  induction pairs with
  | nil =>
    intro acc h
    simp [collectRecs_nil]
  | cons pr rest ih =>
    intro acc hlen
    obtain ⟨dist, idx⟩ := pr
    rw [collectRecs_cons, List.filter_cons]
    by_cases hseen : idx ∈ seen
    · rw [if_pos hseen, ih acc hlen]
      simp [hseen]
    · rw [if_neg hseen]
      have hlen1 : (acc ++ [mkRec meta idx dist]).length = acc.length + 1 := by
        simp
      by_cases hfull : topK ≤ (acc ++ [mkRec meta idx dist]).length
      · rw [if_pos hfull]
        have htop : topK - acc.length = 1 := by
          rw [hlen1] at hfull
          omega
        simp [hseen, htop]
      · rw [if_neg hfull]
        have hlen2 : (acc ++ [mkRec meta idx dist]).length < topK := not_le.mp hfull
        rw [ih _ hlen2]
        have harith : topK - acc.length = (topK - (acc.length + 1)) + 1 := by
          rw [hlen1] at hlen2
          omega
        simp [hseen, harith, hlen1, List.take_succ_cons]

/-- C8 (amended): for every query whose top_k is at least 1, the emitted
list is exactly the map of the record builder over the first top_k
distance/index pairs of the nearest-neighbour answer whose index is
outside the resolved input set, taken in the answer's own order; hence no
input index is emitted, the length is at most top_k, and each emitted
score is max 0 (1 - distance) rounded to four decimal places.  The
original claim fails on two points forced by the code: scores are rounded
before emission, and for top_k equal to 0 the loop appends one record
before testing the bound, so the unrounded-score and unconditional-length
readings are both false; see the counterexample. -/
theorem content_collect_characterization (meta : ContentMeta) (seen : List Nat)
    (pairs : List (ℝ × Nat)) (topK : Nat) (hK : 1 ≤ topK) :
    collectRecs meta seen pairs topK [] =
      ((pairs.filter (fun p => p.2 ∉ seen)).take topK).map (fun p => mkRec meta p.2 p.1) ∧
    (collectRecs meta seen pairs topK []).length ≤ topK ∧
    (∀ p : ℝ × Nat, (mkRec meta p.2 p.1).score = round4 (max 0 (1 - p.1))) := by
  have h := collectRecs_acc meta seen topK pairs [] (by simpa using hK)
  simp only [List.length_nil, Nat.sub_zero, List.nil_append] at h
  refine ⟨h, ?_, fun p => rfl⟩
  rw [h, List.length_map, List.length_take]
  exact min_le_left _ _

theorem content_collect_characterization_witness :
    collectRecs cexMeta [7] [((0:ℝ), 7), ((1:ℝ)/10, 0)] 2 [] =
      (([((0:ℝ), 7), ((1:ℝ)/10, 0)].filter (fun p => p.2 ∉ [7])).take 2).map
        (fun p => mkRec cexMeta p.2 p.1) ∧
    (collectRecs cexMeta [7] [((0:ℝ), 7), ((1:ℝ)/10, 0)] 2 []).length ≤ 2 ∧
    (∀ p : ℝ × Nat, (mkRec cexMeta p.2 p.1).score = round4 (max 0 (1 - p.1))) :=
  content_collect_characterization cexMeta [7] [((0:ℝ), 7), ((1:ℝ)/10, 0)] 2 (by norm_num)

/-- C8 counterexample: with top_k equal to 0 the loop emits one record, so
the output length exceeds top_k, and the score emitted for cosine distance
one third is the four-decimal rounding 0.6667, which differs from
max 0 (1 - 1/3); both readings of the original sentence are false on this
input. -/
theorem content_topk_round_counterexample :
    (collectRecs cexMeta [] [((1:ℝ)/3, 0)] 0 []).length = 1 ∧
    (collectRecs cexMeta [] [((1:ℝ)/3, 0)] 5 []).map ContentRec.score = [6667/10000] ∧
    (6667/10000 : ℝ) ≠ max 0 (1 - 1/3) := by
  have hm : max 0 (1 - (1:ℝ)/3) = 2/3 := by norm_num
  have hr4 : round4 (max 0 (1 - (1:ℝ)/3)) = 6667/10000 := by
    rw [round4, hm]
    have h1 : ((2:ℝ)/3) * 10000 = 20000/3 := by norm_num
    rw [h1, round_eq]
    have hf : ⌊(20000:ℝ)/3 + 1/2⌋ = 6667 := Int.floor_eq_iff.mpr ⟨by norm_num, by norm_num⟩
    rw [hf]
    norm_num
  refine ⟨?_, ?_, by rw [hm]; norm_num⟩
  · rw [collectRecs_cons]
    simp
  · rw [collectRecs_cons]
    rw [if_neg (by simp), if_neg (by simp), collectRecs_nil]
    simp only [List.nil_append, List.map_cons, List.map_nil]
    rw [show (mkRec cexMeta 0 ((1:ℝ)/3)).score = round4 (max 0 (1 - (1:ℝ)/3)) from rfl, hr4]

/-- C9: when no element of the selected list resolves to an embedding
index, the content recommender returns the empty list; the embedding is a
total function, so nothing is raised. -/
theorem unresolvable_input_empty (d : Nat) (emb : Nat → Nat → ℝ)
    (nn : (Nat → ℝ) → Nat → List (ℝ × Nat)) (meta : ContentMeta)
    (sel : List (ℤ ⊕ List Char)) (topK : Nat)
    (h : ∀ s ∈ sel, resolveOne meta s = none) :
    recommendContentBased d emb nn meta sel topK = [] := by
  have hnil : idsToIndices sel meta = [] := by
    unfold idsToIndices
    exact List.filterMap_eq_nil.mpr h
  rw [recommendContentBased, hnil]
  rfl

theorem unresolvable_input_empty_witness :
    recommendContentBased 0 (fun _ _ => 0) (fun _ _ => []) wMeta
      [Sum.inl 99, Sum.inr ['z', 'z']] 10 = [] :=
  unresolvable_input_empty 0 (fun _ _ => 0) (fun _ _ => []) wMeta
    [Sum.inl 99, Sum.inr ['z', 'z']] 10 (by intro s hs; fin_cases hs <;> rfl)

end RecSys
